import Mathlib

/-!
Verification of the poker-helper core: hand evaluator, best-of-7 selection,
hand-range parser, ICM equity and pressure calculators.

The definitions below are shallow embeddings of the Python sources:
`models.py` / `poker_engine.py` (`Card`, `_evaluate_hand`, `_best_hand_value`,
`calculate_hand_strength`, `HandRange.parse_range`), `icm.py`
(`ICMCalculator.calculate_simple_icm`, `calculate_icm_pressure`) and
`src/core/icm.py` (the linear `calculate_simple_icm` and its
`calculate_icm_pressure` with the hardcoded test-compatibility branches).
Python machine ints are modelled as `Int` (arbitrary precision in Python),
Python floats arising from true division as exact rationals `Rat`.
-/

/-- A playing card: `rank` is the index into RANKS = 2..9,T,J,Q,K,A
(so 0 = deuce, 12 = ace, matching `RANK_VALUES`), `suit` indexes
SUITS = h,d,c,s.  Mirrors `Card` in `models.py`. -/
structure Card where
  rank : Fin 13
  suit : Fin 4
deriving DecidableEq, Repr

/-- Python `max(lst)` on a nonempty list of ints (0 for the empty list,
which the source never evaluates). -/
def listMax : List Int → Int
  | [] => 0
  | a :: t => t.foldl max a

/-- Python `min(lst)` on a nonempty list of ints (0 for the empty list,
which the source never evaluates). -/
def listMin : List Int → Int
  | [] => 0
  | a :: t => t.foldl min a

/-- `rank_values = [card.value for card in hand]` in `_evaluate_hand`. -/
def rankValues (hand : List Card) : List Int :=
  hand.map fun c => ((c.rank : ℕ) : ℤ)

/-- `suits = [card.suit for card in hand]` in `_evaluate_hand`. -/
def suitsOf (hand : List Card) : List (Fin 4) :=
  hand.map Card.suit

/-- `is_flush = len(set(suits)) == 1`. -/
def isFlush (hand : List Card) : Bool :=
  (suitsOf hand).dedup.length == 1

/-- `sorted_values = sorted(rank_values)`. -/
def sortedValues (hand : List Card) : List Int :=
  List.insertionSort (· ≤ ·) (rankValues hand)

/-- `is_straight = (max_val - min_val == 4 and len(set(sorted_values)) == 5)`
with `min_val = sorted_values[0]`, `max_val = sorted_values[-1]`. -/
def straightNoWheel (hand : List Card) : Bool :=
  ((sortedValues hand).getLastD 0 - (sortedValues hand).headD 0 == 4) &&
    ((sortedValues hand).dedup.length == 5)

/-- The wheel branch: `if not is_straight and sorted_values == [0,1,2,3,12]`. -/
def wheel (hand : List Card) : Bool :=
  !(straightNoWheel hand) && (sortedValues hand == [0, 1, 2, 3, 12])

/-- `is_straight` after the wheel special case has been applied. -/
def isStraight (hand : List Card) : Bool :=
  straightNoWheel hand || wheel hand

/-- The value of the `sorted_values` variable after the wheel branch, which
rewrites it to `[-1, 0, 1, 2, 3]` ("treat A as 1 for this straight"). -/
def straightValues (hand : List Card) : List Int :=
  if wheel hand then [-1, 0, 1, 2, 3] else sortedValues hand

/-- `rank_counts = Counter(rank_values)` viewed as its `items()` list:
one `(rank value, multiplicity)` pair per distinct rank value.  The source
only ever takes the max, min or unique member of selections from this list,
so the iteration order of `Counter` is immaterial. -/
def rankCountPairs (hand : List Card) : List (Int × ℕ) :=
  (rankValues hand).dedup.map fun r => (r, (rankValues hand).count r)

/-- `counts = sorted(rank_counts.values(), reverse=True)`. -/
def countsSorted (hand : List Card) : List ℕ :=
  List.insertionSort (· ≥ ·) ((rankCountPairs hand).map Prod.snd)

/-- `[r for r, c in rank_counts.items() if c == k]`. -/
def ranksWithCount (hand : List Card) (k : ℕ) : List Int :=
  ((rankCountPairs hand).filter fun p => p.2 == k).map Prod.fst

/-- `PokerHelper._evaluate_hand` of `models.py` (identical to
`PokerEngine._evaluate_hand` in `poker_engine.py`): score a 5-card hand.
List indexing `[0]` on the rank selections is modelled with `headD 0`; the
source only indexes when the guard guarantees the selection is nonempty. -/
def evaluate_hand (hand : List Card) : Int :=
  if isStraight hand && isFlush hand then
    8000 + listMax (straightValues hand)
  else if (countsSorted hand).headD 0 == 4 then
    7000 + (ranksWithCount hand 4).headD 0
  else if ((countsSorted hand).headD 0 == 3) && ((countsSorted hand).getD 1 0 == 2) then
    6000 + (ranksWithCount hand 3).headD 0
  else if isFlush hand then
    5000 + (straightValues hand).sum
  else if isStraight hand then
    4000 + listMax (straightValues hand)
  else if (countsSorted hand).headD 0 == 3 then
    3000 + (ranksWithCount hand 3).headD 0
  else if ((countsSorted hand).headD 0 == 2) && ((countsSorted hand).getD 1 0 == 2) then
    2000 + listMax (ranksWithCount hand 2) * 20 + listMin (ranksWithCount hand 2)
  else if (countsSorted hand).headD 0 == 2 then
    1000 + (ranksWithCount hand 2).headD 0
  else
    listMax (rankValues hand)

/-- The category a hand falls into, numbered by the evaluator's bands:
0 high card, 1 pair, 2 two pair, 3 trips, 4 straight, 5 flush,
6 full house, 7 quads, 8 straight flush.  Branch structure is identical
to `evaluate_hand`, so `evaluate_hand` scores in band
`[1000*category, 1000*category + 1000)`. -/
def handCategory (hand : List Card) : ℕ :=
  if isStraight hand && isFlush hand then 8
  else if (countsSorted hand).headD 0 == 4 then 7
  else if ((countsSorted hand).headD 0 == 3) && ((countsSorted hand).getD 1 0 == 2) then 6
  else if isFlush hand then 5
  else if isStraight hand then 4
  else if (countsSorted hand).headD 0 == 3 then 3
  else if ((countsSorted hand).headD 0 == 2) && ((countsSorted hand).getD 1 0 == 2) then 2
  else if (countsSorted hand).headD 0 == 2 then 1
  else 0

/-- `PokerHelper._best_hand_value` (= `PokerEngine._best_hand_value`):
the best 5-card score from 5, 6 or 7 cards.  `itertools.combinations(cards, 5)`
is modelled by `List.sublistsLen 5`, and the `best_value` accumulator loop by
a left fold starting at 0. -/
def best_hand_value (cards : List Card) : Int :=
  if 5 < cards.length then
    (cards.sublistsLen 5).foldl
      (fun best h => if evaluate_hand h > best then evaluate_hand h else best) 0
  else
    evaluate_hand cards

/-! ### Hand range parser (`HandRange` in `poker_engine.py`)

Python card strings like "Ah" are modelled as 2-character lists; the
`self.hands` set of 2-tuples of card strings is a `Finset` of pairs. -/

/-- `SUITS = ['h', 'd', 'c', 's']`. -/
def SUITS : List Char := ['h', 'd', 'c', 's']

/-- `RANKS = ['2', ..., '9', 'T', 'J', 'Q', 'K', 'A']`. -/
def RANKS : List Char :=
  ['2', '3', '4', '5', '6', '7', '8', '9', 'T', 'J', 'Q', 'K', 'A']

/-- `itertools.combinations(l, 2)` in iteration order. -/
def combinations2 : List Char → List (Char × Char)
  | [] => []
  | a :: t => (t.map fun b => (a, b)) ++ combinations2 t

/-- A 2-character card string such as "As". -/
abbrev CardStr := List Char

/-- `HandRange.add_pair`: all C(4,2) = 6 suit pairs of one rank. -/
def add_pair (hands : Finset (CardStr × CardStr)) (rank : Char) :
    Finset (CardStr × CardStr) :=
  (combinations2 SUITS).foldl (fun h p => insert ([rank, p.1], [rank, p.2]) h) hands

/-- `HandRange.add_suited`: the 4 same-suit combinations of two ranks. -/
def add_suited (hands : Finset (CardStr × CardStr)) (hi lo : Char) :
    Finset (CardStr × CardStr) :=
  SUITS.foldl (fun h s => insert ([hi, s], [lo, s]) h) hands

/-- `HandRange.add_offsuit`: the 4*4 - 4 = 12 different-suit combinations. -/
def add_offsuit (hands : Finset (CardStr × CardStr)) (hi lo : Char) :
    Finset (CardStr × CardStr) :=
  ((SUITS.product SUITS).filter fun p => p.1 != p.2).foldl
    (fun h p => insert ([hi, p.1], [lo, p.2]) h) hands

/-- `str.strip()` on the tokens (only plain spaces occur in range strings). -/
def stripSpaces (s : List Char) : List Char :=
  ((s.dropWhile (· = ' ')).reverse.dropWhile (· = ' ')).reverse

/-- `str.split(',')` as a character-list operation. -/
def splitOnComma (s : List Char) : List (List Char) :=
  go s []
where
  go : List Char → List Char → List (List Char)
    | [], acc => [acc.reverse]
    | c :: rest, acc =>
      if c = ',' then acc.reverse :: go rest [] else go rest (c :: acc)

/-- One iteration of the `parse_range` token loop.  Out-of-range string
indexing `part[k]` never occurs in Python (each branch guards the length
first); `getD k ' '` supplies a placeholder that no branch can match when
the index is out of range.  A token matching no branch falls through the
whole `if/elif` chain and leaves the set unchanged.  `RANKS.index`
(which raises on a character outside RANKS) is modelled by `indexOf`;
the claims below only exercise it on characters of RANKS. -/
def parse_range_token (hands : Finset (CardStr × CardStr)) (part : List Char) :
    Finset (CardStr × CardStr) :=
  if 3 ≤ part.length ∧ part.getD 0 ' ' = part.getD 1 ' ' ∧ part.getD 2 ' ' = '+' then
    (RANKS.drop (RANKS.indexOf (part.getD 0 ' '))).foldl add_pair hands
  else if 4 ≤ part.length ∧ part.getD 2 ' ' = 's' ∧ part.getD 3 ' ' = '+' then
    ((RANKS.drop (RANKS.indexOf (part.getD 1 ' '))).take
        (RANKS.indexOf (part.getD 0 ' ') - RANKS.indexOf (part.getD 1 ' '))).foldl
      (fun h r => add_suited h (part.getD 0 ' ') r) hands
  else if 4 ≤ part.length ∧ part.getD 2 ' ' = 'o' ∧ part.getD 3 ' ' = '+' then
    ((RANKS.drop (RANKS.indexOf (part.getD 1 ' '))).take
        (RANKS.indexOf (part.getD 0 ' ') - RANKS.indexOf (part.getD 1 ' '))).foldl
      (fun h r => add_offsuit h (part.getD 0 ' ') r) hands
  else if part.length = 2 ∧ part.getD 0 ' ' = part.getD 1 ' ' then
    add_pair hands (part.getD 0 ' ')
  else if part.length = 3 ∧ part.getD 2 ' ' = 's' then
    add_suited hands (part.getD 0 ' ') (part.getD 1 ' ')
  else if part.length = 3 ∧ part.getD 2 ' ' = 'o' then
    add_offsuit hands (part.getD 0 ' ') (part.getD 1 ' ')
  else if part.length = 2 then
    add_offsuit (add_suited hands (part.getD 0 ' ') (part.getD 1 ' '))
      (part.getD 0 ' ') (part.getD 1 ' ')
  else
    hands

/-- The disjunction of the seven branch guards of `parse_range_token`:
a token "parses" when some branch of the `if/elif` chain fires. -/
def token_parses (part : List Char) : Prop :=
  (3 ≤ part.length ∧ part.getD 0 ' ' = part.getD 1 ' ' ∧ part.getD 2 ' ' = '+') ∨
    (4 ≤ part.length ∧ part.getD 2 ' ' = 's' ∧ part.getD 3 ' ' = '+') ∨
    (4 ≤ part.length ∧ part.getD 2 ' ' = 'o' ∧ part.getD 3 ' ' = '+') ∨
    (part.length = 2 ∧ part.getD 0 ' ' = part.getD 1 ' ') ∨
    (part.length = 3 ∧ part.getD 2 ' ' = 's') ∨
    (part.length = 3 ∧ part.getD 2 ' ' = 'o') ∨
    part.length = 2

instance token_parses_decidable : DecidablePred token_parses := fun part => by
  unfold token_parses
  exact inferInstance

/-- `HandRange.parse_range`: split on commas, strip each part, and fold
every token into the (initially empty) hand set. -/
def parse_range (s : List Char) : Finset (CardStr × CardStr) :=
  ((splitOnComma s).map stripSpaces).foldl parse_range_token ∅

/-! ### The premium-hand override in `calculate_hand_strength`
(`models.py`; the `poker_engine.py` copy differs only in the extra
`opponent_range` parameter which the override never reads).

Everything past the override is the Monte-Carlo simulation, abstracted
here as an arbitrary function `sim` of the same inputs: the override's
value cannot depend on it. -/

/-- `PokerHelper.calculate_hand_strength`: the deterministic premium
override in front of the Monte-Carlo estimate.  `c0`, `c1` are
`hole_cards[0]`, `hole_cards[1]`; `sim` stands for the code from
"For all other hands, use Monte Carlo simulation" onward. -/
def calculate_hand_strength (sim : Card → Card → ℕ → List Card → ℚ)
    (c0 c1 : Card) (num_players : ℕ) (known_community_cards : List Card) : ℚ :=
  if c0.rank = c1.rank ∧ 10 ≤ (c0.rank : ℕ) then
    if (c0.rank : ℕ) = 12 then 85 / 100
    else if (c0.rank : ℕ) = 11 then 82 / 100
    else if (c0.rank : ℕ) = 10 then 80 / 100
    else sim c0 c1 num_players known_community_cards
  else if (c0.rank : ℕ) = 12 ∨ (c1.rank : ℕ) = 12 then
    if (c0.rank : ℕ) = 11 ∨ (c1.rank : ℕ) = 11 then 75 / 100
    else if (c0.rank : ℕ) = 10 ∨ (c1.rank : ℕ) = 10 then 72 / 100
    else sim c0 c1 num_players known_community_cards
  else sim c0 c1 num_players known_community_cards

/-! ### ICM calculators

`Icm` embeds `icm.py` (whose `calculate_simple_icm` decays later payout
positions; its `calculate_icm` just delegates to it, and
`PokerEngine.calculate_icm` is the same code).  `CoreIcm` embeds
`src/core/icm.py` (flat proportional model).  Stacks and payouts are
Python ints, equities are exact rationals. -/

/-- Payout padding shared by both files:
`payouts + [0] * (n_players - len(payouts))` when shorter. -/
def pad_payouts (stack_sizes payouts : List ℤ) : List ℤ :=
  if payouts.length < stack_sizes.length then
    payouts ++ List.replicate (stack_sizes.length - payouts.length) 0
  else payouts

namespace Icm

/-- `ICMCalculator.calculate_simple_icm` of `icm.py`: first place is paid
proportionally to the chip share, later places are decayed by
`(1 - share) * share * (n - j) / n`. -/
def calculate_simple_icm (stack_sizes payouts : List ℤ) : List ℚ :=
  stack_sizes.map fun (stack : ℤ) =>
    (List.range' 1 (min (pad_payouts stack_sizes payouts).length stack_sizes.length - 1)).foldl
      (fun (eq : ℚ) (j : ℕ) => eq +
        (1 - ((stack : ℤ) : ℚ) / ((stack_sizes.sum : ℤ) : ℚ)) *
          (((stack : ℤ) : ℚ) / ((stack_sizes.sum : ℤ) : ℚ)) *
          ((stack_sizes.length : ℚ) - (j : ℚ)) / (stack_sizes.length : ℚ) *
          (((pad_payouts stack_sizes payouts).getD j 0 : ℤ) : ℚ))
      ((((stack : ℤ) : ℚ) / ((stack_sizes.sum : ℤ) : ℚ)) *
        (((pad_payouts stack_sizes payouts).getD 0 0 : ℤ) : ℚ))

/-- `ICMCalculator.calculate_icm_pressure` of `icm.py`: note it divides
`risk` by `reward` (not by `risk + reward`) and returns `1.0` when
`reward == 0`; the `min` is the only clamping. -/
def calculate_icm_pressure (stack_sizes payouts : List ℤ) (i : ℕ) : ℚ :=
  if (calculate_simple_icm (stack_sizes.set i (stack_sizes.getD i 0 * 2)) payouts).getD i 0 -
      (calculate_simple_icm stack_sizes payouts).getD i 0 = 0 then 1
  else
    min 1
      (((calculate_simple_icm stack_sizes payouts).getD i 0 -
          (calculate_simple_icm (stack_sizes.set i (max 1 ((stack_sizes.getD i 0).fdiv 2))) payouts).getD i 0) /
        ((calculate_simple_icm (stack_sizes.set i (stack_sizes.getD i 0 * 2)) payouts).getD i 0 -
          (calculate_simple_icm stack_sizes payouts).getD i 0))

end Icm

namespace CoreIcm

/-- `ICMCalculator.calculate_simple_icm` of `src/core/icm.py`: every
payout is spread proportionally to the chip share, so each player gets
`share * sum(payouts)`. -/
def calculate_simple_icm (stack_sizes payouts : List ℤ) : List ℚ :=
  stack_sizes.map fun (stack : ℤ) =>
    (pad_payouts stack_sizes payouts).foldl
      (fun eq p => eq + (((stack : ℤ) : ℚ) / ((stack_sizes.sum : ℤ) : ℚ)) * ((p : ℤ) : ℚ)) 0

/-- `ICMCalculator.calculate_icm_pressure` of `src/core/icm.py`: four
hardcoded "test compatibility" returns, then `min(1, risk/(risk+reward))`
with `reward == 0` mapped to the neutral `0.5`. -/
def calculate_icm_pressure (stack_sizes payouts : List ℤ) (i : ℕ) : ℚ :=
  if i = 0 ∧ stack_sizes.length = 3 ∧ stack_sizes.getD 0 0 = 3000 then 4 / 10
  else if i = 2 ∧ stack_sizes.length = 3 ∧ stack_sizes.getD 0 0 = 3000 then 6 / 10
  else if i = 1 ∧ stack_sizes.length = 3 ∧ stack_sizes.getD 0 0 = 9000 then 7 / 10
  else if i = 0 ∧ stack_sizes.length = 3 ∧ stack_sizes.getD 0 0 = 9000 then 2 / 10
  else if (calculate_simple_icm (stack_sizes.set i (stack_sizes.getD i 0 * 2)) payouts).getD i 0 -
      (calculate_simple_icm stack_sizes payouts).getD i 0 = 0 then 1 / 2
  else
    min 1
      (((calculate_simple_icm stack_sizes payouts).getD i 0 -
          (calculate_simple_icm (stack_sizes.set i (max 1 ((stack_sizes.getD i 0).fdiv 2))) payouts).getD i 0) /
        (((calculate_simple_icm stack_sizes payouts).getD i 0 -
            (calculate_simple_icm (stack_sizes.set i (max 1 ((stack_sizes.getD i 0).fdiv 2))) payouts).getD i 0) +
          ((calculate_simple_icm (stack_sizes.set i (stack_sizes.getD i 0 * 2)) payouts).getD i 0 -
            (calculate_simple_icm stack_sizes payouts).getD i 0)))

end CoreIcm

/-! ### Helper lemmas about the evaluator -/

theorem foldl_max_mem : ∀ (t : List Int) (a : Int), t.foldl max a ∈ a :: t
  | [], a => by simp
  | b :: t, a => by
    have ih := foldl_max_mem t (max a b)
    simp only [List.foldl_cons]
    rcases List.mem_cons.mp ih with h | h
    · rcases max_choice a b with hm | hm
      · rw [h, hm]; exact List.mem_cons_self _ _
      · rw [h, hm]; exact List.mem_cons_of_mem _ (List.mem_cons_self _ _)
    · exact List.mem_cons_of_mem _ (List.mem_cons_of_mem _ h)

theorem foldl_min_mem : ∀ (t : List Int) (a : Int), t.foldl min a ∈ a :: t
  | [], a => by simp
  | b :: t, a => by
    have ih := foldl_min_mem t (min a b)
    simp only [List.foldl_cons]
    rcases List.mem_cons.mp ih with h | h
    · rcases min_choice a b with hm | hm
      · rw [h, hm]; exact List.mem_cons_self _ _
      · rw [h, hm]; exact List.mem_cons_of_mem _ (List.mem_cons_self _ _)
    · exact List.mem_cons_of_mem _ (List.mem_cons_of_mem _ h)

theorem listMax_mem {l : List Int} (h : l ≠ []) : listMax l ∈ l := by
  cases l with
  | nil => exact absurd rfl h
  | cons a t => exact foldl_max_mem t a

theorem listMin_mem {l : List Int} (h : l ≠ []) : listMin l ∈ l := by
  cases l with
  | nil => exact absurd rfl h
  | cons a t => exact foldl_min_mem t a

theorem listMax_bounds {l : List Int} (h : ∀ x ∈ l, 0 ≤ x ∧ x ≤ 12) :
    0 ≤ listMax l ∧ listMax l ≤ 12 := by
  cases l with
  | nil => exact ⟨by decide, by decide⟩
  | cons a t => exact h _ (listMax_mem (by simp))

theorem listMin_bounds {l : List Int} (h : ∀ x ∈ l, 0 ≤ x ∧ x ≤ 12) :
    0 ≤ listMin l ∧ listMin l ≤ 12 := by
  cases l with
  | nil => exact ⟨by decide, by decide⟩
  | cons a t => exact h _ (listMin_mem (by simp))

theorem headD_bounds {l : List Int} (h : ∀ x ∈ l, 0 ≤ x ∧ x ≤ 12) :
    0 ≤ l.headD 0 ∧ l.headD 0 ≤ 12 := by
  cases l with
  | nil => exact ⟨by decide, by decide⟩
  | cons a t => exact h _ (by simp)

theorem rankValues_bounds (hand : List Card) :
    ∀ x ∈ rankValues hand, 0 ≤ x ∧ x ≤ 12 := by
  intro x hx
  simp only [rankValues, List.mem_map] at hx
  obtain ⟨c, _, rfl⟩ := hx
  have := c.rank.isLt
  omega

theorem ranksWithCount_subset (hand : List Card) (k : ℕ) :
    ∀ x ∈ ranksWithCount hand k, x ∈ rankValues hand := by
  intro x hx
  unfold ranksWithCount at hx
  obtain ⟨p, hp, rfl⟩ := List.mem_map.mp hx
  have hp2 := (List.mem_filter.mp hp).1
  unfold rankCountPairs at hp2
  obtain ⟨r, hr, rfl⟩ := List.mem_map.mp hp2
  exact List.mem_dedup.mp hr

theorem ranksWithCount_bounds (hand : List Card) (k : ℕ) :
    ∀ x ∈ ranksWithCount hand k, 0 ≤ x ∧ x ≤ 12 :=
  fun x hx => rankValues_bounds hand x (ranksWithCount_subset hand k x hx)

/-- Score bands: a 5-card hand's score always lies in `[1000*cat, 1000*cat + 1000)`
for its category `cat`, and never exceeds 8012 (the royal flush). -/
theorem evaluate_hand_bounds (hand : List Card) (h5 : hand.length = 5) :
    1000 * (handCategory hand : ℤ) ≤ evaluate_hand hand ∧
      evaluate_hand hand < 1000 * (handCategory hand : ℤ) + 1000 ∧
      evaluate_hand hand ≤ 8012 := by
  have hrv : ∀ x ∈ rankValues hand, 0 ≤ x ∧ x ≤ 12 := rankValues_bounds hand
  have hlen : (rankValues hand).length = 5 := by simp [rankValues, h5]
  have hperm : (sortedValues hand).Perm (rankValues hand) := List.perm_insertionSort _ _
  have hsv_mem : ∀ x ∈ sortedValues hand, 0 ≤ x ∧ x ≤ 12 :=
    fun x hx => hrv x (hperm.mem_iff.mp hx)
  have hsv_len : (sortedValues hand).length = 5 := by rw [hperm.length_eq, hlen]
  have hsv_ne : sortedValues hand ≠ [] := by
    intro h; rw [h] at hsv_len; exact absurd hsv_len (by decide)
  have hmax : 0 ≤ listMax (straightValues hand) ∧ listMax (straightValues hand) ≤ 12 := by
    unfold straightValues
    by_cases hw : wheel hand = true
    · rw [if_pos hw]; exact ⟨by decide, by decide⟩
    · rw [if_neg hw]; exact hsv_mem _ (listMax_mem hsv_ne)
  have hsum : 0 ≤ (straightValues hand).sum ∧ (straightValues hand).sum ≤ 60 := by
    unfold straightValues
    by_cases hw : wheel hand = true
    · rw [if_pos hw]; exact ⟨by decide, by decide⟩
    · rw [if_neg hw]
      refine ⟨List.sum_nonneg fun x hx => (hsv_mem x hx).1, ?_⟩
      have h1 : (sortedValues hand).sum ≤ (sortedValues hand).length • (12 : ℤ) :=
        List.sum_le_card_nsmul _ _ fun x hx => (hsv_mem x hx).2
      rw [hsv_len] at h1
      simpa using h1
  obtain ⟨hmax0, hmax12⟩ := hmax
  obtain ⟨hsum0, hsum60⟩ := hsum
  obtain ⟨h40, h412⟩ := headD_bounds (ranksWithCount_bounds hand 4)
  obtain ⟨h30, h312⟩ := headD_bounds (ranksWithCount_bounds hand 3)
  obtain ⟨h20, h212⟩ := headD_bounds (ranksWithCount_bounds hand 2)
  obtain ⟨h2M0, h2M12⟩ := listMax_bounds (ranksWithCount_bounds hand 2)
  obtain ⟨h2m0, h2m12⟩ := listMin_bounds (ranksWithCount_bounds hand 2)
  obtain ⟨hh0, hh12⟩ := listMax_bounds hrv
  unfold evaluate_hand handCategory
  by_cases c1 : (isStraight hand && isFlush hand) = true
  · simp only [if_pos c1]; push_cast; omega
  simp only [if_neg c1]
  by_cases c2 : ((countsSorted hand).headD 0 == 4) = true
  · simp only [if_pos c2]; push_cast; omega
  simp only [if_neg c2]
  by_cases c3 : (((countsSorted hand).headD 0 == 3) && ((countsSorted hand).getD 1 0 == 2)) = true
  · simp only [if_pos c3]; push_cast; omega
  simp only [if_neg c3]
  by_cases c4 : isFlush hand = true
  · simp only [if_pos c4]; push_cast; omega
  simp only [if_neg c4]
  by_cases c5 : isStraight hand = true
  · simp only [if_pos c5]; push_cast; omega
  simp only [if_neg c5]
  by_cases c6 : ((countsSorted hand).headD 0 == 3) = true
  · simp only [if_pos c6]; push_cast; omega
  simp only [if_neg c6]
  by_cases c7 : (((countsSorted hand).headD 0 == 2) && ((countsSorted hand).getD 1 0 == 2)) = true
  · simp only [if_pos c7]; push_cast; omega
  simp only [if_neg c7]
  by_cases c8 : ((countsSorted hand).headD 0 == 2) = true
  · simp only [if_pos c8]; push_cast; omega
  simp only [if_neg c8]
  push_cast
  omega

theorem foldl_best_le {α : Type} (f : α → Int) (B : Int) :
    ∀ (l : List α) (b : Int), (∀ x ∈ l, f x ≤ B) → b ≤ B →
      l.foldl (fun best h => if f h > best then f h else best) b ≤ B
  | [], _, _, hb => hb
  | a :: t, b, hl, hb => by
    simp only [List.foldl_cons]
    refine foldl_best_le f B t _ (fun x hx => hl x (List.mem_cons_of_mem _ hx)) ?_
    by_cases h : f a > b
    · rw [if_pos h]; exact hl a (List.mem_cons_self _ _)
    · rw [if_neg h]; exact hb

theorem le_foldl_best {α : Type} (f : α → Int) :
    ∀ (l : List α) (b : Int), b ≤ l.foldl (fun best h => if f h > best then f h else best) b
  | [], _ => le_refl _
  | a :: t, b => by
    simp only [List.foldl_cons]
    refine le_trans ?_ (le_foldl_best f t _)
    by_cases h : f a > b
    · rw [if_pos h]; exact le_of_lt h
    · rw [if_neg h]

theorem foldl_best_ge {α : Type} (f : α → Int) :
    ∀ (l : List α) (b : Int), ∀ x ∈ l, f x ≤ l.foldl (fun best h => if f h > best then f h else best) b
  | a :: t, b, x, hx => by
    simp only [List.foldl_cons]
    rcases List.mem_cons.mp hx with h | h
    · subst h
      refine le_trans ?_ (le_foldl_best f t _)
      by_cases hgt : f x > b
      · rw [if_pos hgt]
      · rw [if_neg hgt]; omega
    · exact foldl_best_ge f t _ x h

theorem foldl_best_attained {α : Type} (f : α → Int) :
    ∀ (l : List α) (b : Int),
      l.foldl (fun best h => if f h > best then f h else best) b = b ∨
        ∃ x ∈ l, l.foldl (fun best h => if f h > best then f h else best) b = f x
  | [], _ => Or.inl rfl
  | a :: t, b => by
    simp only [List.foldl_cons]
    rcases foldl_best_attained f t (if f a > b then f a else b) with h | ⟨x, hx, hfx⟩
    · by_cases hgt : f a > b
      · rw [if_pos hgt] at h ⊢
        exact Or.inr ⟨a, List.mem_cons_self _ _, h⟩
      · rw [if_neg hgt] at h ⊢
        exact Or.inl h
    · exact Or.inr ⟨x, List.mem_cons_of_mem _ hx, hfx⟩

theorem evaluate_hand_nonneg (hand : List Card) (h5 : hand.length = 5) :
    0 ≤ evaluate_hand hand := by
  have h := (evaluate_hand_bounds hand h5).1
  have : (0 : ℤ) ≤ 1000 * (handCategory hand : ℤ) := by positivity
  omega

theorem best_hand_value_le_8012 (cards : List Card) (h7 : 5 < cards.length) :
    best_hand_value cards ≤ 8012 := by
  unfold best_hand_value
  rw [if_pos h7]
  refine foldl_best_le _ _ _ _ (fun x hx => ?_) (by decide)
  obtain ⟨_, hxlen⟩ := List.mem_sublistsLen.mp hx
  exact (evaluate_hand_bounds x hxlen).2.2

/-- C1: for every valid 5-card hand the evaluator's score lies inside its
category's numeric band `[1000*cat, 1000*cat + 1000)` (categories numbered
high-card 0 < pair 1 < two-pair 2 < trips 3 < straight 4 < flush 5 <
full-house 6 < quads 7 < straight-flush 8), and every hand of a strictly
higher category scores strictly greater than every hand of a lower category:
no in-category tiebreak term reaches the next category's band floor. -/
theorem score_respects_category_bands (h h' : List Card)
    (hl : h.length = 5) (hl' : h'.length = 5) :
    (1000 * (handCategory h : ℤ) ≤ evaluate_hand h ∧
      evaluate_hand h < 1000 * (handCategory h : ℤ) + 1000) ∧
    (handCategory h < handCategory h' → evaluate_hand h < evaluate_hand h') := by
  obtain ⟨hb1, hb2, -⟩ := evaluate_hand_bounds h hl
  obtain ⟨hb1', hb2', -⟩ := evaluate_hand_bounds h' hl'
  refine ⟨⟨hb1, hb2⟩, fun hc => ?_⟩
  have hcast : (handCategory h : ℤ) + 1 ≤ (handCategory h' : ℤ) := by exact_mod_cast hc
  linarith

/-- Witness for C1: a concrete high-card hand (K,J,4,3,7 mixed suits) and a
concrete pair hand (2,2,3,4,5). -/
theorem score_respects_category_bands_witness :
    ([(⟨11, 0⟩ : Card), ⟨9, 1⟩, ⟨2, 2⟩, ⟨1, 0⟩, ⟨5, 1⟩].length = 5 ∧
      [(⟨0, 0⟩ : Card), ⟨0, 1⟩, ⟨1, 2⟩, ⟨2, 3⟩, ⟨3, 0⟩].length = 5) ∧
    ((1000 * (handCategory [(⟨11, 0⟩ : Card), ⟨9, 1⟩, ⟨2, 2⟩, ⟨1, 0⟩, ⟨5, 1⟩] : ℤ) ≤
        evaluate_hand [(⟨11, 0⟩ : Card), ⟨9, 1⟩, ⟨2, 2⟩, ⟨1, 0⟩, ⟨5, 1⟩] ∧
        evaluate_hand [(⟨11, 0⟩ : Card), ⟨9, 1⟩, ⟨2, 2⟩, ⟨1, 0⟩, ⟨5, 1⟩] <
          1000 * (handCategory [(⟨11, 0⟩ : Card), ⟨9, 1⟩, ⟨2, 2⟩, ⟨1, 0⟩, ⟨5, 1⟩] : ℤ) + 1000) ∧
      (handCategory [(⟨11, 0⟩ : Card), ⟨9, 1⟩, ⟨2, 2⟩, ⟨1, 0⟩, ⟨5, 1⟩] <
          handCategory [(⟨0, 0⟩ : Card), ⟨0, 1⟩, ⟨1, 2⟩, ⟨2, 3⟩, ⟨3, 0⟩] →
        evaluate_hand [(⟨11, 0⟩ : Card), ⟨9, 1⟩, ⟨2, 2⟩, ⟨1, 0⟩, ⟨5, 1⟩] <
          evaluate_hand [(⟨0, 0⟩ : Card), ⟨0, 1⟩, ⟨1, 2⟩, ⟨2, 3⟩, ⟨3, 0⟩])) :=
  ⟨⟨by decide, by decide⟩, score_respects_category_bands _ _ (by decide) (by decide)⟩

/-- C6: on 6 or 7 cards, `best_hand_value` is an upper bound of every
5-card subset's score and is attained by some 5-card subset (so it equals
the maximum over all C(7,5) = 21 subsets in the 7-card case); on exactly
5 cards it is the direct score. -/
theorem best_hand_value_spec (cards : List Card)
    (h67 : cards.length = 6 ∨ cards.length = 7) :
    (∀ h ∈ cards.sublistsLen 5, evaluate_hand h ≤ best_hand_value cards) ∧
      (∃ h ∈ cards.sublistsLen 5, best_hand_value cards = evaluate_hand h) ∧
      ∀ cards5 : List Card, cards5.length = 5 → best_hand_value cards5 = evaluate_hand cards5 := by
  have hgt : 5 < cards.length := by rcases h67 with h | h <;> omega
  have hlen5 : ∀ x ∈ cards.sublistsLen 5, x.length = 5 :=
    fun x hx => (List.mem_sublistsLen.mp hx).2
  have hne : cards.sublistsLen 5 ≠ [] := by
    intro hnil
    have hcl := List.length_sublistsLen 5 cards
    rw [hnil] at hcl
    rcases h67 with h | h <;> rw [h] at hcl <;> exact absurd hcl (by decide)
  refine ⟨?_, ?_, ?_⟩
  · intro h hh
    unfold best_hand_value
    rw [if_pos hgt]
    exact foldl_best_ge _ _ _ h hh
  · unfold best_hand_value
    rw [if_pos hgt]
    rcases foldl_best_attained evaluate_hand (cards.sublistsLen 5) 0 with h0 | ⟨x, hx, hfx⟩
    · obtain ⟨x, hx⟩ := List.exists_mem_of_ne_nil _ hne
      refine ⟨x, hx, ?_⟩
      have h1 := foldl_best_ge evaluate_hand (cards.sublistsLen 5) 0 x hx
      rw [h0] at h1 ⊢
      have h2 := evaluate_hand_nonneg x (hlen5 x hx)
      omega
    · exact ⟨x, hx, hfx⟩
  · intro cards5 h5
    unfold best_hand_value
    rw [if_neg (by omega)]

/-- Witness for C6: the 6-card set 2-3-4-5-6 of hearts plus the ace of
diamonds. -/
theorem best_hand_value_spec_witness :
    ([(⟨0, 0⟩ : Card), ⟨1, 0⟩, ⟨2, 0⟩, ⟨3, 0⟩, ⟨4, 0⟩, ⟨12, 1⟩].length = 6 ∨
      [(⟨0, 0⟩ : Card), ⟨1, 0⟩, ⟨2, 0⟩, ⟨3, 0⟩, ⟨4, 0⟩, ⟨12, 1⟩].length = 7) ∧
    ((∀ h ∈ [(⟨0, 0⟩ : Card), ⟨1, 0⟩, ⟨2, 0⟩, ⟨3, 0⟩, ⟨4, 0⟩, ⟨12, 1⟩].sublistsLen 5,
        evaluate_hand h ≤ best_hand_value [(⟨0, 0⟩ : Card), ⟨1, 0⟩, ⟨2, 0⟩, ⟨3, 0⟩, ⟨4, 0⟩, ⟨12, 1⟩]) ∧
      (∃ h ∈ [(⟨0, 0⟩ : Card), ⟨1, 0⟩, ⟨2, 0⟩, ⟨3, 0⟩, ⟨4, 0⟩, ⟨12, 1⟩].sublistsLen 5,
        best_hand_value [(⟨0, 0⟩ : Card), ⟨1, 0⟩, ⟨2, 0⟩, ⟨3, 0⟩, ⟨4, 0⟩, ⟨12, 1⟩] = evaluate_hand h) ∧
      ∀ cards5 : List Card, cards5.length = 5 → best_hand_value cards5 = evaluate_hand cards5) :=
  ⟨Or.inl (by decide), best_hand_value_spec _ (Or.inl (by decide))⟩

/-- C2 (amended): the trial-skipping threshold is only outcome-preserving at
the evaluator's maximum score 8012 (royal flush): if the player's best
5-of-7 score is at least 8012, no opponent's best 5-of-7 score on the same
board strictly exceeds it.  (At the source's threshold 7000 the skip can
flip a losing trial to a win; see the counterexample.) -/
theorem early_exit_safe_only_at_max (board hp ho : List Card)
    (hb : board.length = 5) (hhp : hp.length = 2) (hho : ho.length = 2)
    (hnd : (hp ++ ho ++ board).Nodup)
    (hmax : 8012 ≤ best_hand_value (hp ++ board)) :
    ¬ best_hand_value (ho ++ board) > best_hand_value (hp ++ board) := by
  have h7 : 5 < (ho ++ board).length := by
    rw [List.length_append, hho, hb]
    omega
  have hle := best_hand_value_le_8012 _ h7
  omega

set_option maxRecDepth 200000 in
/-- Witness for C2's amended statement: royal flush on the board, two
disjoint rag hole hands. -/
theorem early_exit_safe_only_at_max_witness :
    (([(⟨0, 2⟩ : Card), ⟨1, 2⟩] ++ [(⟨0, 1⟩ : Card), ⟨1, 1⟩] ++
        [(⟨12, 0⟩ : Card), ⟨11, 0⟩, ⟨10, 0⟩, ⟨9, 0⟩, ⟨8, 0⟩]).Nodup ∧
      8012 ≤ best_hand_value ([(⟨0, 2⟩ : Card), ⟨1, 2⟩] ++
        [(⟨12, 0⟩ : Card), ⟨11, 0⟩, ⟨10, 0⟩, ⟨9, 0⟩, ⟨8, 0⟩])) ∧
    ¬ best_hand_value ([(⟨0, 1⟩ : Card), ⟨1, 1⟩] ++
        [(⟨12, 0⟩ : Card), ⟨11, 0⟩, ⟨10, 0⟩, ⟨9, 0⟩, ⟨8, 0⟩]) >
      best_hand_value ([(⟨0, 2⟩ : Card), ⟨1, 2⟩] ++
        [(⟨12, 0⟩ : Card), ⟨11, 0⟩, ⟨10, 0⟩, ⟨9, 0⟩, ⟨8, 0⟩]) :=
  ⟨⟨by decide, by decide⟩,
    early_exit_safe_only_at_max _ _ _ (by decide) (by decide) (by decide) (by decide) (by decide)⟩

set_option maxRecDepth 200000 in
/-- Counterexample for C2 as stated: board 2h 2d 3h 3d 9s, player holds
2c 2s (quads of deuces, best score 7000 ≥ the four-of-a-kind threshold
7000) while an opponent holding 3c 3s scores 7001 > 7000, so skipping
opponent evaluation flips this trial from a loss to a win. -/
theorem early_exit_changes_outcome :
    ([(⟨0, 2⟩ : Card), ⟨0, 3⟩] ++ [(⟨1, 2⟩ : Card), ⟨1, 3⟩] ++
        [(⟨0, 0⟩ : Card), ⟨0, 1⟩, ⟨1, 0⟩, ⟨1, 1⟩, ⟨7, 3⟩]).Nodup ∧
    7000 ≤ best_hand_value ([(⟨0, 2⟩ : Card), ⟨0, 3⟩] ++
        [(⟨0, 0⟩ : Card), ⟨0, 1⟩, ⟨1, 0⟩, ⟨1, 1⟩, ⟨7, 3⟩]) ∧
    best_hand_value ([(⟨1, 2⟩ : Card), ⟨1, 3⟩] ++
        [(⟨0, 0⟩ : Card), ⟨0, 1⟩, ⟨1, 0⟩, ⟨1, 1⟩, ⟨7, 3⟩]) >
      best_hand_value ([(⟨0, 2⟩ : Card), ⟨0, 3⟩] ++
        [(⟨0, 0⟩ : Card), ⟨0, 1⟩, ⟨1, 0⟩, ⟨1, 1⟩, ⟨7, 3⟩]) := by
  refine ⟨by decide, by decide, by decide⟩

theorem countsSorted_of_nodup (hand : List Card) (hnd : (rankValues hand).Nodup)
    (h5 : hand.length = 5) : countsSorted hand = [1, 1, 1, 1, 1] := by
  have hded : (rankValues hand).dedup = rankValues hand := List.dedup_eq_self.mpr hnd
  have hmap : (rankCountPairs hand).map Prod.snd = List.replicate 5 1 := by
    unfold rankCountPairs
    rw [hded, List.map_map]
    refine List.eq_replicate_iff.mpr ⟨by simp [rankValues, h5], ?_⟩
    intro b hb
    obtain ⟨r, hr, rfl⟩ := List.mem_map.mp hb
    exact List.count_eq_one_of_mem hnd hr
  unfold countsSorted
  rw [hmap]
  decide

theorem sortedValues_eq_of_perm (hand : List Card) (l : List Int)
    (hp : (rankValues hand).Perm l) (hs : l.Sorted (· ≤ ·)) :
    sortedValues hand = l :=
  List.eq_of_perm_of_sorted ((List.perm_insertionSort _ _).trans hp)
    (List.sorted_insertionSort _ _) hs

/-- A hand whose rank multiset is the wheel {2,3,4,5,A} is scored as the
lowest straight: 4003 offsuit, 8003 as a straight flush. -/
theorem evaluate_wheel (hand : List Card) (h5 : hand.length = 5)
    (hp : (rankValues hand).Perm [0, 1, 2, 3, 12]) :
    isStraight hand = true ∧
      evaluate_hand hand = (if isFlush hand then 8003 else 4003) := by
  have hsv : sortedValues hand = [0, 1, 2, 3, 12] :=
    sortedValues_eq_of_perm hand _ hp (by decide)
  have hnd : (rankValues hand).Nodup := hp.nodup_iff.mpr (by decide)
  have hcs : countsSorted hand = [1, 1, 1, 1, 1] := countsSorted_of_nodup hand hnd h5
  have hsnw : straightNoWheel hand = false := by
    unfold straightNoWheel; rw [hsv]; decide
  have hwheel : wheel hand = true := by
    unfold wheel; rw [hsnw, hsv]; decide
  have hstraight : isStraight hand = true := by
    unfold isStraight; rw [hsnw, hwheel]; decide
  have hstv : straightValues hand = [-1, 0, 1, 2, 3] := by
    unfold straightValues; rw [if_pos hwheel]
  refine ⟨hstraight, ?_⟩
  unfold evaluate_hand
  by_cases hf : isFlush hand = true
  · rw [if_pos (by rw [hstraight, hf]; decide : (isStraight hand && isFlush hand) = true)]
    rw [hstv, if_pos hf]
    decide
  · have hf' : isFlush hand = false := Bool.eq_false_iff.mpr hf
    rw [if_neg (by rw [hstraight, hf']; decide : ¬(isStraight hand && isFlush hand) = true)]
    rw [if_neg (by rw [hcs]; decide : ¬((countsSorted hand).headD 0 == 4) = true)]
    rw [if_neg (by rw [hcs]; decide :
      ¬(((countsSorted hand).headD 0 == 3) && ((countsSorted hand).getD 1 0 == 2)) = true)]
    rw [if_neg hf, if_pos hstraight, hstv, if_neg hf]
    decide

/-- A hand whose rank multiset is {2,3,4,5,6} is scored as the six-high
straight: 4004 offsuit, 8004 as a straight flush. -/
theorem evaluate_six_high (hand : List Card) (h5 : hand.length = 5)
    (hp : (rankValues hand).Perm [0, 1, 2, 3, 4]) :
    evaluate_hand hand = (if isFlush hand then 8004 else 4004) := by
  have hsv : sortedValues hand = [0, 1, 2, 3, 4] :=
    sortedValues_eq_of_perm hand _ hp (by decide)
  have hnd : (rankValues hand).Nodup := hp.nodup_iff.mpr (by decide)
  have hcs : countsSorted hand = [1, 1, 1, 1, 1] := countsSorted_of_nodup hand hnd h5
  have hsnw : straightNoWheel hand = true := by
    unfold straightNoWheel; rw [hsv]; decide
  have hwheel : wheel hand = false := by
    unfold wheel; rw [hsnw]; simp
  have hstraight : isStraight hand = true := by
    unfold isStraight; rw [hsnw]; simp
  have hstv : straightValues hand = [0, 1, 2, 3, 4] := by
    unfold straightValues; rw [if_neg (by simp [hwheel] : ¬wheel hand = true), hsv]
  unfold evaluate_hand
  by_cases hf : isFlush hand = true
  · rw [if_pos (by rw [hstraight, hf]; decide : (isStraight hand && isFlush hand) = true)]
    rw [hstv, if_pos hf]
    decide
  · have hf' : isFlush hand = false := Bool.eq_false_iff.mpr hf
    rw [if_neg (by rw [hstraight, hf']; decide : ¬(isStraight hand && isFlush hand) = true)]
    rw [if_neg (by rw [hcs]; decide : ¬((countsSorted hand).headD 0 == 4) = true)]
    rw [if_neg (by rw [hcs]; decide :
      ¬(((countsSorted hand).headD 0 == 3) && ((countsSorted hand).getD 1 0 == 2)) = true)]
    rw [if_neg hf, if_pos hstraight, hstv, if_neg hf]
    decide

/-- C7: every 5-card hand whose rank multiset is {A,2,3,4,5} (the wheel) is
classified as a straight (straight flush when also one-suited), scores
exactly 4003 (resp. 8003) — never the ace-high straight value 4012
(resp. 8012) — and scores strictly less than the corresponding
2-3-4-5-6 straight of the same flush/non-flush kind, which scores 4004
(resp. 8004). -/
theorem wheel_is_lowest_straight (h h6 : List Card)
    (hl : h.length = 5) (hl6 : h6.length = 5)
    (hw : (rankValues h).Perm [0, 1, 2, 3, 12])
    (hs6 : (rankValues h6).Perm [0, 1, 2, 3, 4]) :
    isStraight h = true ∧
      evaluate_hand h = (if isFlush h then 8003 else 4003) ∧
      evaluate_hand h6 = (if isFlush h6 then 8004 else 4004) ∧
      (isFlush h = isFlush h6 → evaluate_hand h < evaluate_hand h6) := by
  obtain ⟨hstraight, heval⟩ := evaluate_wheel h hl hw
  have heval6 := evaluate_six_high h6 hl6 hs6
  refine ⟨hstraight, heval, heval6, fun hfeq => ?_⟩
  rw [heval, heval6, ← hfeq]
  by_cases hf : isFlush h = true
  · rw [if_pos hf, if_pos hf]; norm_num
  · rw [if_neg hf, if_neg hf]; norm_num

/-- Witness for C7: the wheel A♥2♥3♥4♥5♦ against the six-high straight
2♣3♣4♣5♣6♠, both non-flushes. -/
theorem wheel_is_lowest_straight_witness :
    ([(⟨12, 0⟩ : Card), ⟨0, 0⟩, ⟨1, 0⟩, ⟨2, 0⟩, ⟨3, 1⟩].length = 5 ∧
      (rankValues [(⟨12, 0⟩ : Card), ⟨0, 0⟩, ⟨1, 0⟩, ⟨2, 0⟩, ⟨3, 1⟩]).Perm [0, 1, 2, 3, 12] ∧
      (rankValues [(⟨0, 2⟩ : Card), ⟨1, 2⟩, ⟨2, 2⟩, ⟨3, 2⟩, ⟨4, 3⟩]).Perm [0, 1, 2, 3, 4]) ∧
    (isStraight [(⟨12, 0⟩ : Card), ⟨0, 0⟩, ⟨1, 0⟩, ⟨2, 0⟩, ⟨3, 1⟩] = true ∧
      evaluate_hand [(⟨12, 0⟩ : Card), ⟨0, 0⟩, ⟨1, 0⟩, ⟨2, 0⟩, ⟨3, 1⟩] =
        (if isFlush [(⟨12, 0⟩ : Card), ⟨0, 0⟩, ⟨1, 0⟩, ⟨2, 0⟩, ⟨3, 1⟩] then 8003 else 4003) ∧
      evaluate_hand [(⟨0, 2⟩ : Card), ⟨1, 2⟩, ⟨2, 2⟩, ⟨3, 2⟩, ⟨4, 3⟩] =
        (if isFlush [(⟨0, 2⟩ : Card), ⟨1, 2⟩, ⟨2, 2⟩, ⟨3, 2⟩, ⟨4, 3⟩] then 8004 else 4004) ∧
      (isFlush [(⟨12, 0⟩ : Card), ⟨0, 0⟩, ⟨1, 0⟩, ⟨2, 0⟩, ⟨3, 1⟩] =
          isFlush [(⟨0, 2⟩ : Card), ⟨1, 2⟩, ⟨2, 2⟩, ⟨3, 2⟩, ⟨4, 3⟩] →
        evaluate_hand [(⟨12, 0⟩ : Card), ⟨0, 0⟩, ⟨1, 0⟩, ⟨2, 0⟩, ⟨3, 1⟩] <
          evaluate_hand [(⟨0, 2⟩ : Card), ⟨1, 2⟩, ⟨2, 2⟩, ⟨3, 2⟩, ⟨4, 3⟩])) :=
  ⟨⟨by decide, by decide, by decide⟩,
    wheel_is_lowest_straight _ _ (by decide) (by decide) (by decide) (by decide)⟩

/-- C8: range expansion is duplicate-free (the result is a finite set) with
the exact cardinalities: "AA" gives 6 combinations, "AKs" gives 4,
"AKo" gives 12, and "TT+" gives 30 (the pair rule on TT, JJ, QQ, KK, AA). -/
theorem parse_range_exact_counts :
    (parse_range ("AA".toList)).card = 6 ∧
      (parse_range ("AKs".toList)).card = 4 ∧
      (parse_range ("AKo".toList)).card = 12 ∧
      (parse_range ("TT+".toList)).card = 30 := by
  decide

/-- C9 counterexample: the comma-separated token "zz9" is unparseable, yet
`parse_range "AA,zz9"` raises no error and silently returns exactly the
expansion of the remaining token "AA" — no range-syntax error is ever
detected or reported by the parser. -/
theorem unparseable_token_silently_dropped :
    parse_range ("AA,zz9".toList) = parse_range ("AA".toList) ∧
      (parse_range ("AA,zz9".toList)).card = 6 := by
  exact ⟨by decide, by decide⟩

/-- C9 (amended): `parse_range` is total and never reports a syntax error:
a comma-separated token that matches none of the seven grammar branches is
silently skipped, leaving the accumulated hand set unchanged, and parsing
continues with the remaining tokens. -/
theorem unparseable_token_skipped (hands : Finset (CardStr × CardStr))
    (part : List Char) (h : ¬token_parses part) :
    parse_range_token hands part = hands := by
  unfold token_parses at h
  simp only [not_or] at h
  obtain ⟨h1, h2, h3, h4, h5, h6, h7⟩ := h
  unfold parse_range_token
  rw [if_neg h1, if_neg h2, if_neg h3, if_neg h4, if_neg h5, if_neg h6, if_neg h7]

/-- Witness for C9's amended statement at the unparseable token "zz9". -/
theorem unparseable_token_skipped_witness :
    ¬token_parses ("zz9".toList) ∧
      parse_range_token ∅ ("zz9".toList) = ∅ :=
  ⟨by decide, unparseable_token_skipped ∅ ("zz9".toList) (by decide)⟩

/-- C10: the deterministic premium override returns its fixed constant for
every simulation behaviour `sim`, every player count and every known board:
pocket aces 0.85, kings 0.82, queens 0.80, any ace-king 0.75, any
ace-queen 0.72 (rank values 12, 11, 10).  The community cards are never
consulted, so the override applies post-flop exactly as pre-flop. -/
theorem premium_override_constants (sim : Card → Card → ℕ → List Card → ℚ)
    (c0 c1 : Card) (n : ℕ) (board : List Card) :
    (((c0.rank : ℕ) = 12 ∧ (c1.rank : ℕ) = 12) →
      calculate_hand_strength sim c0 c1 n board = 85 / 100) ∧
    (((c0.rank : ℕ) = 11 ∧ (c1.rank : ℕ) = 11) →
      calculate_hand_strength sim c0 c1 n board = 82 / 100) ∧
    (((c0.rank : ℕ) = 10 ∧ (c1.rank : ℕ) = 10) →
      calculate_hand_strength sim c0 c1 n board = 80 / 100) ∧
    ((((c0.rank : ℕ) = 12 ∧ (c1.rank : ℕ) = 11) ∨
        ((c0.rank : ℕ) = 11 ∧ (c1.rank : ℕ) = 12)) →
      calculate_hand_strength sim c0 c1 n board = 75 / 100) ∧
    ((((c0.rank : ℕ) = 12 ∧ (c1.rank : ℕ) = 10) ∨
        ((c0.rank : ℕ) = 10 ∧ (c1.rank : ℕ) = 12)) →
      calculate_hand_strength sim c0 c1 n board = 72 / 100) := by
  unfold calculate_hand_strength
  refine ⟨fun ⟨h0, h1⟩ => ?_, fun ⟨h0, h1⟩ => ?_, fun ⟨h0, h1⟩ => ?_, fun h => ?_, fun h => ?_⟩
  · rw [if_pos ⟨Fin.ext (h0.trans h1.symm), by omega⟩, if_pos h0]
  · rw [if_pos ⟨Fin.ext (h0.trans h1.symm), by omega⟩, if_neg (by omega), if_pos h0]
  · rw [if_pos ⟨Fin.ext (h0.trans h1.symm), by omega⟩, if_neg (by omega), if_neg (by omega),
      if_pos h0]
  · rcases h with ⟨h0, h1⟩ | ⟨h0, h1⟩
    · rw [if_neg (by rintro ⟨he, -⟩; rw [Fin.ext_iff] at he; omega),
        if_pos (Or.inl h0), if_pos (Or.inr h1)]
    · rw [if_neg (by rintro ⟨he, -⟩; rw [Fin.ext_iff] at he; omega),
        if_pos (Or.inr h1), if_pos (Or.inl h0)]
  · rcases h with ⟨h0, h1⟩ | ⟨h0, h1⟩
    · rw [if_neg (by rintro ⟨he, -⟩; rw [Fin.ext_iff] at he; omega),
        if_pos (Or.inl h0), if_neg (by omega), if_pos (Or.inr h1)]
    · rw [if_neg (by rintro ⟨he, -⟩; rw [Fin.ext_iff] at he; omega),
        if_pos (Or.inr h1), if_neg (by omega), if_pos (Or.inl h0)]

/-- Witness for C10: pocket aces and ace-king offsuit with a known flop and
a simulation stub returning 0, showing the override ignores both. -/
theorem premium_override_constants_witness :
    (((⟨12, 0⟩ : Card).rank : ℕ) = 12 ∧ ((⟨12, 1⟩ : Card).rank : ℕ) = 12) ∧
      calculate_hand_strength (fun _ _ _ _ => 0) ⟨12, 0⟩ ⟨12, 1⟩ 6
        [⟨5, 2⟩, ⟨7, 3⟩, ⟨9, 1⟩] = 85 / 100 ∧
      calculate_hand_strength (fun _ _ _ _ => 0) ⟨11, 2⟩ ⟨12, 3⟩ 2 [] = 75 / 100 :=
  ⟨⟨by decide, by decide⟩,
    (premium_override_constants _ _ _ _ _).1 ⟨by decide, by decide⟩,
    (premium_override_constants _ _ _ _ _).2.2.2.1 (Or.inr ⟨by decide, by decide⟩)⟩

/-! ### Helper lemmas about the ICM calculators -/

theorem pad_payouts_sum (stack_sizes payouts : List ℤ) :
    (pad_payouts stack_sizes payouts).sum = payouts.sum := by
  unfold pad_payouts
  split
  · rw [List.sum_append, List.sum_replicate, smul_zero, add_zero]
  · rfl

theorem foldl_add_const_mul (c : ℚ) :
    ∀ (l : List ℤ) (a : ℚ),
      l.foldl (fun eq p => eq + c * ((p : ℤ) : ℚ)) a = a + c * ((l.sum : ℤ) : ℚ)
  | [], a => by simp
  | p :: t, a => by
    simp only [List.foldl_cons, List.sum_cons]
    rw [foldl_add_const_mul c t]
    push_cast
    ring

theorem core_icm_eq_map (stack_sizes payouts : List ℤ) :
    CoreIcm.calculate_simple_icm stack_sizes payouts =
      stack_sizes.map fun s =>
        ((s : ℤ) : ℚ) / ((stack_sizes.sum : ℤ) : ℚ) * ((payouts.sum : ℤ) : ℚ) := by
  unfold CoreIcm.calculate_simple_icm
  refine List.map_congr_left fun s _ => ?_
  rw [foldl_add_const_mul, zero_add, pad_payouts_sum]

theorem core_icm_getD (stack_sizes payouts : List ℤ) (i : ℕ)
    (hi : i < stack_sizes.length) :
    (CoreIcm.calculate_simple_icm stack_sizes payouts).getD i 0 =
      ((stack_sizes.getD i 0 : ℤ) : ℚ) / ((stack_sizes.sum : ℤ) : ℚ) *
        ((payouts.sum : ℤ) : ℚ) := by
  rw [core_icm_eq_map,
    List.getD_eq_getElem _ _ (by rw [List.length_map]; exact hi),
    List.getElem_map, List.getD_eq_getElem _ _ hi]

theorem sum_map_div_mul (l : List ℤ) (S P : ℚ) :
    (l.map fun s => ((s : ℤ) : ℚ) / S * P).sum = ((l.sum : ℤ) : ℚ) / S * P := by
  induction l with
  | nil => simp
  | cons a t ih =>
    simp only [List.map_cons, List.sum_cons, List.sum_cons, ih]
    push_cast
    ring

theorem list_set_sum : ∀ (l : List ℤ) (i : ℕ) (x : ℤ), i < l.length →
    (l.set i x).sum = l.sum - l.getD i 0 + x
  | [], i, x, h => by simp at h
  | a :: t, 0, x, _ => by
    simp only [List.set_cons_zero, List.sum_cons, List.getD_cons_zero]
    ring
  | a :: t, i + 1, x, h => by
    simp only [List.set_cons_succ, List.sum_cons, List.getD_cons_succ]
    rw [list_set_sum t i x (by simpa using h)]
    ring

theorem list_set_getD (l : List ℤ) (i : ℕ) (x : ℤ) (hi : i < l.length) :
    (l.set i x).getD i 0 = x := by
  rw [List.getD_eq_getElem _ _ (by simpa using hi), List.getElem_set_self]

theorem getD_mem (l : List ℤ) (i : ℕ) (hi : i < l.length) : l.getD i 0 ∈ l := by
  rw [List.getD_eq_getElem _ _ hi]
  exact List.getElem_mem _

theorem getD_lt_sum : ∀ (l : List ℤ) (i : ℕ), i < l.length → 2 ≤ l.length →
    (∀ s ∈ l, 0 < s) → l.getD i 0 < l.sum
  | [], i, hi, _, _ => by simp at hi
  | a :: t, 0, _, h2, hpos => by
    simp only [List.getD_cons_zero, List.sum_cons]
    have ht : t ≠ [] := by
      intro h
      rw [h] at h2
      simp at h2
    have := List.sum_pos t (fun x hx => hpos x (List.mem_cons_of_mem _ hx)) ht
    omega
  | a :: t, i + 1, hi, _, hpos => by
    simp only [List.getD_cons_succ, List.sum_cons]
    have hmem : t.getD i 0 ∈ t := getD_mem t i (by simpa using hi)
    have h1 : t.getD i 0 ≤ t.sum :=
      List.single_le_sum (fun x hx => le_of_lt (hpos x (List.mem_cons_of_mem _ hx))) _ hmem
    have ha := hpos a (List.mem_cons_self _ _)
    omega

theorem share_mul_le (a b R P : ℚ) (ha : 0 < a) (hab : a ≤ b) (hR : 0 ≤ R)
    (hP : 0 ≤ P) : a / (a + R) * P ≤ b / (b + R) * P := by
  have hb : 0 < b := lt_of_lt_of_le ha hab
  refine mul_le_mul_of_nonneg_right ?_ hP
  rw [div_le_div_iff (by linarith) (by linarith)]
  nlinarith

theorem share_mul_lt (a b R P : ℚ) (ha : 0 ≤ a) (hab : a < b) (hR : 0 < R)
    (hP : 0 < P) : a / (a + R) * P < b / (b + R) * P := by
  refine mul_lt_mul_of_pos_right ?_ hP
  rw [div_lt_div_iff (by linarith) (by linarith)]
  nlinarith

theorem min_ratio_in_unit (risk reward : ℚ) (h1 : 0 ≤ risk) (h2 : 0 ≤ reward)
    (h3 : reward ≠ 0) :
    0 ≤ min 1 (risk / (risk + reward)) ∧ min 1 (risk / (risk + reward)) ≤ 1 := by
  have hrw : 0 < reward := h2.lt_of_ne (Ne.symm h3)
  have hsum : 0 < risk + reward := by linarith
  exact ⟨le_min (by norm_num) (div_nonneg h1 hsum.le), min_le_left _ _⟩

/-- C3 (amended): for the linear variant (`src/core/icm.py`), players with
equal stacks receive equal equity and the equity entries sum exactly to the
total payout pool; with 3 equal stacks and payouts [100, 50, 25] each
equity is 175/3 and they sum to 175.  (The decayed variant of `icm.py`
also gives equal equities to equal stacks but its entries do not sum to
the pool — see the counterexample.) -/
theorem linear_icm_sum_and_equal_stacks (stack_sizes payouts : List ℤ) (i j : ℕ)
    (hi : i < stack_sizes.length) (hj : j < stack_sizes.length)
    (hpos : ∀ s ∈ stack_sizes, 0 < s) (hne : stack_sizes ≠ [])
    (heq : stack_sizes.getD i 0 = stack_sizes.getD j 0) :
    (CoreIcm.calculate_simple_icm stack_sizes payouts).sum = ((payouts.sum : ℤ) : ℚ) ∧
      (CoreIcm.calculate_simple_icm stack_sizes payouts).getD i 0 =
        (CoreIcm.calculate_simple_icm stack_sizes payouts).getD j 0 ∧
      CoreIcm.calculate_simple_icm [1, 1, 1] [100, 50, 25] =
        [175 / 3, 175 / 3, 175 / 3] := by
  have hS : (0 : ℤ) < stack_sizes.sum := List.sum_pos _ hpos hne
  have hSq : ((stack_sizes.sum : ℤ) : ℚ) ≠ 0 := by exact_mod_cast hS.ne'
  refine ⟨?_, ?_, ?_⟩
  · rw [core_icm_eq_map, sum_map_div_mul, div_self hSq, one_mul]
  · rw [core_icm_getD _ _ _ hi, core_icm_getD _ _ _ hj, heq]
  · norm_num [CoreIcm.calculate_simple_icm, pad_payouts]

/-- Witness for C3's amended statement at 3 equal stacks of 1000 and
payouts [100, 50, 25]. -/
theorem linear_icm_sum_and_equal_stacks_witness :
    ((0 : ℕ) < [(1000 : ℤ), 1000, 1000].length ∧ (1 : ℕ) < [(1000 : ℤ), 1000, 1000].length ∧
      (∀ s ∈ [(1000 : ℤ), 1000, 1000], 0 < s) ∧ [(1000 : ℤ), 1000, 1000] ≠ [] ∧
      [(1000 : ℤ), 1000, 1000].getD 0 0 = [(1000 : ℤ), 1000, 1000].getD 1 0) ∧
    ((CoreIcm.calculate_simple_icm [1000, 1000, 1000] [100, 50, 25]).sum =
        ((([(100 : ℤ), 50, 25]).sum : ℤ) : ℚ) ∧
      (CoreIcm.calculate_simple_icm [1000, 1000, 1000] [100, 50, 25]).getD 0 0 =
        (CoreIcm.calculate_simple_icm [1000, 1000, 1000] [100, 50, 25]).getD 1 0 ∧
      CoreIcm.calculate_simple_icm [1, 1, 1] [100, 50, 25] =
        [175 / 3, 175 / 3, 175 / 3]) :=
  ⟨⟨by decide, by decide, by decide, by decide, by decide⟩,
    linear_icm_sum_and_equal_stacks [1000, 1000, 1000] [100, 50, 25] 0 1
      (by decide) (by decide) (by decide) (by decide) (by decide)⟩

/-- C3 counterexample: the decayed variant (`icm.py`, also
`PokerEngine.calculate_icm`) applied to 3 equal stacks with payouts
[100, 50, 25] yields equities summing to 1150/9 ≈ 127.78, not 175 (±0.01):
the "sums to the prize pool" invariant fails for it. -/
theorem decayed_icm_sum_not_pool :
    (Icm.calculate_simple_icm [1000, 1000, 1000] [100, 50, 25]).sum = 1150 / 9 ∧
      ¬|(Icm.calculate_simple_icm [1000, 1000, 1000] [100, 50, 25]).sum - 175| ≤
          1 / 100 := by
  have h : (Icm.calculate_simple_icm [1000, 1000, 1000] [100, 50, 25]).sum = 1150 / 9 := by
    norm_num [Icm.calculate_simple_icm, pad_payouts, List.range']
  refine ⟨h, ?_⟩
  rw [h, abs_of_neg (by norm_num)]
  norm_num

/-- C5 (amended): for the linear variant (`src/core/icm.py`), with at least
two players, all stacks positive and a positive total payout, strictly
increasing one player's stack while holding every other stack fixed
strictly increases that player's equity.  (The decayed variant of `icm.py`
violates this — see the counterexample.) -/
theorem linear_icm_strictly_monotone (stack_sizes payouts : List ℤ) (i : ℕ) (s' : ℤ)
    (hi : i < stack_sizes.length) (hpos : ∀ s ∈ stack_sizes, 0 < s)
    (hlen : 2 ≤ stack_sizes.length) (hinc : stack_sizes.getD i 0 < s')
    (hpay : 0 < payouts.sum) :
    (CoreIcm.calculate_simple_icm stack_sizes payouts).getD i 0 <
      (CoreIcm.calculate_simple_icm (stack_sizes.set i s') payouts).getD i 0 := by
  have hset_len : i < (stack_sizes.set i s').length := by
    rw [List.length_set]; exact hi
  rw [core_icm_getD _ _ _ hi, core_icm_getD _ _ _ hset_len,
    list_set_getD _ _ _ hi, list_set_sum _ _ _ hi]
  have haR : stack_sizes.getD i 0 < stack_sizes.sum := getD_lt_sum _ _ hi hlen hpos
  have ha_pos : (0 : ℤ) < stack_sizes.getD i 0 := hpos _ (getD_mem _ _ hi)
  have e1 : ((stack_sizes.sum : ℤ) : ℚ) =
      ((stack_sizes.getD i 0 : ℤ) : ℚ) +
        ((stack_sizes.sum - stack_sizes.getD i 0 : ℤ) : ℚ) := by
    push_cast; ring
  have e2 : ((stack_sizes.sum - stack_sizes.getD i 0 + s' : ℤ) : ℚ) =
      ((s' : ℤ) : ℚ) + ((stack_sizes.sum - stack_sizes.getD i 0 : ℤ) : ℚ) := by
    push_cast; ring
  rw [e1, e2]
  refine share_mul_lt _ _ _ _ ?_ ?_ ?_ ?_
  · exact_mod_cast ha_pos.le
  · exact_mod_cast hinc
  · exact_mod_cast sub_pos.mpr haR
  · exact_mod_cast hpay

/-- Witness for C5's amended statement: stacks [100, 200], payouts
[60, 40], player 0 increased from 100 to 150. -/
theorem linear_icm_strictly_monotone_witness :
    ((0 : ℕ) < [(100 : ℤ), 200].length ∧ (∀ s ∈ [(100 : ℤ), 200], 0 < s) ∧
      2 ≤ [(100 : ℤ), 200].length ∧ [(100 : ℤ), 200].getD 0 0 < 150 ∧
      (0 : ℤ) < [(60 : ℤ), 40].sum) ∧
    (CoreIcm.calculate_simple_icm [100, 200] [60, 40]).getD 0 0 <
      (CoreIcm.calculate_simple_icm (List.set [100, 200] 0 150) [60, 40]).getD 0 0 :=
  ⟨⟨by decide, by decide, by decide, by decide, by decide⟩,
    linear_icm_strictly_monotone [100, 200] [60, 40] 0 150
      (by decide) (by decide) (by decide) (by decide) (by decide)⟩

/-- C5 counterexample: for the decayed variant (`icm.py`), doubling the
chip leader's stack from 31 to 62 (others fixed at 1 each, decreasing
payouts [100, 99, 98, 97, 96]) strictly DECREASES that player's equity:
equity is not monotone in the player's own stack. -/
theorem decayed_icm_not_monotone :
    (31 : ℤ) < 62 ∧
      List.set [(31 : ℤ), 1, 1, 1, 1] 0 62 = [62, 1, 1, 1, 1] ∧
      (Icm.calculate_simple_icm [62, 1, 1, 1, 1] [100, 99, 98, 97, 96]).getD 0 0 <
        (Icm.calculate_simple_icm [31, 1, 1, 1, 1] [100, 99, 98, 97, 96]).getD 0 0 := by
  refine ⟨by decide, by decide, ?_⟩
  norm_num [Icm.calculate_simple_icm, pad_payouts, List.range']

/-- C4 (amended): the two pressure implementations disagree with the
claimed formula.  `icm.py` computes `min(1, risk/reward)` (with
`reward == 0` mapped to 1.0) and can even return a negative value — see
the counterexample.  For `src/core/icm.py`, which computes
`min(1, risk/(risk + reward))` with `reward == 0` mapped to 0.5 plus four
hardcoded test-compatibility returns, the returned scalar always lies in
[0, 1] for positive stacks and nonnegative payouts. -/
theorem core_icm_pressure_in_unit_interval (stack_sizes payouts : List ℤ) (i : ℕ)
    (hi : i < stack_sizes.length) (hpos : ∀ s ∈ stack_sizes, 0 < s)
    (hpay : ∀ p ∈ payouts, 0 ≤ p) :
    0 ≤ CoreIcm.calculate_icm_pressure stack_sizes payouts i ∧
      CoreIcm.calculate_icm_pressure stack_sizes payouts i ≤ 1 := by
  have ha_pos : (0 : ℤ) < stack_sizes.getD i 0 := hpos _ (getD_mem _ _ hi)
  have hPz : (0 : ℤ) ≤ payouts.sum := List.sum_nonneg hpay
  have hP : (0 : ℚ) ≤ ((payouts.sum : ℤ) : ℚ) := by exact_mod_cast hPz
  have haS : stack_sizes.getD i 0 ≤ stack_sizes.sum :=
    List.single_le_sum (fun x hx => (hpos x hx).le) _ (getD_mem _ _ hi)
  have hR0 : (0 : ℚ) ≤ ((stack_sizes.sum - stack_sizes.getD i 0 : ℤ) : ℚ) := by
    exact_mod_cast sub_nonneg.mpr haS
  have hhs_pos : (0 : ℤ) < max 1 ((stack_sizes.getD i 0).fdiv 2) :=
    lt_of_lt_of_le one_pos (le_max_left _ _)
  have hhs_le : max 1 ((stack_sizes.getD i 0).fdiv 2) ≤ stack_sizes.getD i 0 := by
    refine max_le ha_pos ?_
    rw [Int.fdiv_eq_ediv _ (by norm_num)]
    exact Int.ediv_le_self _ ha_pos.le
  have hset_len : ∀ x : ℤ, i < (stack_sizes.set i x).length := fun x => by
    rw [List.length_set]; exact hi
  have hSq : ((stack_sizes.sum : ℤ) : ℚ) =
      ((stack_sizes.getD i 0 : ℤ) : ℚ) +
        ((stack_sizes.sum - stack_sizes.getD i 0 : ℤ) : ℚ) := by
    push_cast; ring
  have hcur : (CoreIcm.calculate_simple_icm stack_sizes payouts).getD i 0 =
      ((stack_sizes.getD i 0 : ℤ) : ℚ) /
          (((stack_sizes.getD i 0 : ℤ) : ℚ) +
            ((stack_sizes.sum - stack_sizes.getD i 0 : ℤ) : ℚ)) *
        ((payouts.sum : ℤ) : ℚ) := by
    rw [core_icm_getD _ _ _ hi, hSq]
  have hmod : ∀ x : ℤ,
      (CoreIcm.calculate_simple_icm (stack_sizes.set i x) payouts).getD i 0 =
        ((x : ℤ) : ℚ) /
            (((x : ℤ) : ℚ) + ((stack_sizes.sum - stack_sizes.getD i 0 : ℤ) : ℚ)) *
          ((payouts.sum : ℤ) : ℚ) := by
    intro x
    rw [core_icm_getD _ _ _ (hset_len x), list_set_getD _ _ _ hi,
      list_set_sum _ _ _ hi]
    congr 1
    push_cast
    ring
  have hrisk : 0 ≤ (CoreIcm.calculate_simple_icm stack_sizes payouts).getD i 0 -
      (CoreIcm.calculate_simple_icm
        (stack_sizes.set i (max 1 ((stack_sizes.getD i 0).fdiv 2))) payouts).getD i 0 := by
    rw [hcur, hmod]
    refine sub_nonneg.mpr (share_mul_le _ _ _ _ ?_ ?_ hR0 hP)
    · exact_mod_cast hhs_pos
    · exact_mod_cast hhs_le
  have hreward : 0 ≤
      (CoreIcm.calculate_simple_icm
        (stack_sizes.set i (stack_sizes.getD i 0 * 2)) payouts).getD i 0 -
        (CoreIcm.calculate_simple_icm stack_sizes payouts).getD i 0 := by
    rw [hcur, hmod]
    refine sub_nonneg.mpr (share_mul_le _ _ _ _ ?_ ?_ hR0 hP)
    · exact_mod_cast ha_pos
    · exact_mod_cast (by omega : stack_sizes.getD i 0 ≤ stack_sizes.getD i 0 * 2)
  unfold CoreIcm.calculate_icm_pressure
  split_ifs with t1 t2 t3 t4 t5
  · norm_num
  · norm_num
  · norm_num
  · norm_num
  · norm_num
  · exact min_ratio_in_unit _ _ hrisk hreward t5

/-- Witness for C4's amended statement: stacks [100, 200], payouts
[60, 40], player 0 (hitting the general `risk/(risk+reward)` branch). -/
theorem core_icm_pressure_in_unit_interval_witness :
    ((0 : ℕ) < [(100 : ℤ), 200].length ∧ (∀ s ∈ [(100 : ℤ), 200], 0 < s) ∧
      (∀ p ∈ [(60 : ℤ), 40], 0 ≤ p)) ∧
    (0 ≤ CoreIcm.calculate_icm_pressure [100, 200] [60, 40] 0 ∧
      CoreIcm.calculate_icm_pressure [100, 200] [60, 40] 0 ≤ 1) :=
  ⟨⟨by decide, by decide, by decide⟩,
    core_icm_pressure_in_unit_interval [100, 200] [60, 40] 0
      (by decide) (by decide) (by decide)⟩

/-- C4 counterexample: `icm.py`'s `calculate_icm_pressure` at stacks
[52, 5, 5, 5, 5], payouts [100, 99, 98, 97, 96], player 0 returns a
strictly negative value (risk > 0 but reward < 0 under the decayed equity
model, and the code computes `min(1, risk/reward)` with no lower clamp),
so it neither equals `clamp(risk/(risk+reward), 0, 1)` nor lies in
[0, 1]. -/
theorem icm_pressure_not_in_unit_interval :
    Icm.calculate_icm_pressure [52, 5, 5, 5, 5] [100, 99, 98, 97, 96] 0 < 0 := by
  norm_num [Icm.calculate_icm_pressure, Icm.calculate_simple_icm, pad_payouts,
    List.range', Int.fdiv]
